import Mathlib

/-!
Verification development for the chibisafe repository.

Part I embeds small association-list primitives used throughout.
Part II embeds frontend and backend route code that is present in the
source tree (the admin files page's checkRouteQuery, the upload
component's progress callbacks, and the GetAlbumLinks route).
Part III models the chunked upload ingestion pipeline described in the
specification (Chunk Receiver, Upload Session Tracker, Reassembler,
Content Deduplicator, Finalizer); the pipeline implementation itself is
not among the provided source files, so those definitions are modelled
from the specification text, as marked in their doc comments.
-/

deriving instance DecidableEq for Except

namespace Chibisafe

/-! ### Part I: association lists keyed by a decidable-equality type -/

/-- Look up the value stored under key a: first match wins. -/
def getAssoc {α β : Type} [DecidableEq α] (a : α) : List (α × β) → Option β
  | [] => none
  | (b, c) :: rest => if a = b then some c else getAssoc a rest

/-- Store v under key a, overwriting the first existing entry for a,
or appending a fresh entry at the end when a is absent. -/
def setAssoc {α β : Type} [DecidableEq α] : List (α × β) → α → β → List (α × β)
  | [], a, v => [(a, v)]
  | (b, c) :: rest, a, v => if a = b then (a, v) :: rest else (b, c) :: setAssoc rest a v

/-- Keys of an association list. -/
def keysOf {α β : Type} (l : List (α × β)) : List α := l.map Prod.fst

/-! ### Part II: code embedded from the source files -/

/-- One invocation of filesStore.get as issued by the admin files page:
the admin flag is always true there, and page is the optional page
argument (none when the call passes no page field). -/
structure FilesGetCall where
  admin : Bool
  page : Option Int
deriving DecidableEq

/-- Embedding of checkRouteQuery from the admin files page. The JS code
tests `if (route.query.page)` (truthiness: a present, non-empty string),
then computes `Number(route.query.page)` and branches on `Number.isNaN`.
The JS Number conversion is abstracted as the parameter toNumber, where
none stands for NaN. Note the NaN branch falls through the outer if
after its call, so the trailing call runs as well. -/
def checkRouteQuery (toNumber : String → Option Int) (pageQuery : Option String) :
    List FilesGetCall :=
  match pageQuery with
  | some s =>
    if s ≠ "" then
      match toNumber s with
      | some n => [⟨true, some n⟩]
      | none => [⟨true, none⟩, ⟨true, none⟩]
    else [⟨true, none⟩]
  | none => [⟨true, none⟩]

/-- The arguments of one uploadsStore.updateProgess call as issued by the
upload component's onProgress callback. The third store argument is the
bytes-sent count (the field the store entry tracks as bytesSent). -/
structure UpdateProgessCall where
  uuid : String
  progress : Nat
  bytesSent : Nat
deriving DecidableEq

/-- Embedding of the onProgress callback wired in the upload component:
it receives only the uuid and a progress value from the uploader client
and invokes updateProgess with the literal 0 as the bytes-sent argument. -/
def onProgressUpdate (uuid : String) (progressValue : Nat) : UpdateProgessCall :=
  ⟨uuid, progressValue, 0⟩

/-- The uploads-store entry created by the onStart callback via addFile. -/
structure UploadEntry where
  uuid : String
  name : String
  mimeType : String
  processing : Bool
  uploadStatus : String
  bytesSent : Nat
  bytesTotal : Nat
  progress : Nat
  url : String
deriving DecidableEq

/-- Embedding of the onStart callback: it registers the file with
status uploading, zero bytes sent, zero progress, and the file size as
the byte total. -/
def onStartEntry (uuid name mimeType : String) (fileSize : Nat) : UploadEntry :=
  ⟨uuid, name, mimeType, true, "uploading", 0, fileSize, 0, ""⟩

/-- Album row, restricted to the columns GetAlbumLinks touches. -/
structure Album where
  id : Nat
  uuid : String
  userId : Nat
deriving DecidableEq

/-- Link row, restricted to the columns GetAlbumLinks touches. -/
structure Link where
  uuid : String
  identifier : String
  views : Nat
  enabled : Bool
  enableDownload : Bool
  expiresAt : Option Nat
  createdAt : Nat
  editedAt : Nat
  albumId : Nat
  userId : Nat
deriving DecidableEq

/-- The field projection applied by the links query's select clause. -/
structure LinkView where
  uuid : String
  identifier : String
  views : Nat
  enabled : Bool
  enableDownload : Bool
  expiresAt : Option Nat
  createdAt : Nat
  editedAt : Nat
deriving DecidableEq

/-- Project a link row to the selected columns. -/
def Link.toView (l : Link) : LinkView :=
  ⟨l.uuid, l.identifier, l.views, l.enabled, l.enableDownload, l.expiresAt, l.createdAt,
    l.editedAt⟩

/-- Reply of the GetAlbumLinks route: either a 400 with a message, or a
200 carrying the projected links. -/
inductive LinksReply
  | badRequest (message : String)
  | ok (links : List LinkView)
deriving DecidableEq

/-- Embedding of the GetAlbumLinks run handler. The uuid path parameter
is optional; the JS guard `if (!uuid)` rejects a missing or empty value.
The album lookup is findFirst over albums matching uuid and userId, and
the links query filters by the found album id and the requesting user. -/
def getAlbumLinks (albums : List Album) (links : List Link) (userId : Nat)
    (uuidParam : Option String) : LinksReply :=
  match uuidParam with
  | none => .badRequest "Invalid uuid supplied"
  | some u =>
    if u = "" then .badRequest "Invalid uuid supplied"
    else
      match albums.find? (fun a => a.uuid == u && a.userId == userId) with
      | none => .badRequest "Album does not exist or does not belong to the user"
      | some album =>
        .ok ((links.filter (fun l => l.albumId == album.id && l.userId == userId)).map
          Link.toView)

/-! ### Part III: the chunked upload ingestion pipeline, modelled from the
specification (the pipeline sources are not among the provided files; the
spec's component contracts in its sections 3 to 5 are followed). Byte
streams are lists of naturals; time is a natural tick counter. -/

/-- Modelled from the spec: the session lifecycle statuses. -/
inductive UploadStatus
  | receiving
  | reassembling
  | deduplicating
  | finalizing
  | completed
  | failed
deriving DecidableEq

/-- Modelled from the spec: recognized configuration, restricted to the
chunk-size limit used by chunk validation. -/
structure Config where
  chunkSizeLimit : Nat
deriving DecidableEq

/-- Modelled from the spec: an UploadSession. The scratch area holding
the persisted chunks is the association list chunks, keyed by 0-based
chunk index; receivedChunks is its key set. -/
structure UploadSession where
  totalChunks : Nat
  totalSize : Nat
  chunks : List (Nat × List Nat)
  status : UploadStatus
  lastChunkAt : Nat
deriving DecidableEq

/-- Modelled from the spec: the error taxonomy of the pipeline
(ValidationError, IncompleteUploadError, StorageError). -/
inductive UploadError
  | validationFailed
  | incompleteUpload
  | storageFailure
deriving DecidableEq

/-- Number of distinct chunk indices persisted so far (the scratch area
holds exactly one entry per received index). -/
def receivedCount (s : UploadSession) : Nat := s.chunks.length

/-- Modelled from the spec: chunk validation. A chunk is accepted when
its index lies in the declared range, its payload does not exceed the
chunk-size limit, its declared totalChunks agrees with the session's
recorded value (when a session exists), and its payload is nonempty
unless it is the final chunk. -/
def chunkValid (cfg : Config) (sess : Option UploadSession) (index totalChunks : Nat)
    (payload : List Nat) : Bool :=
  decide (index < totalChunks) &&
    decide (payload.length ≤ cfg.chunkSizeLimit) &&
    (match sess with
     | some s => decide (s.totalChunks = totalChunks)
     | none => true) &&
    (decide (payload ≠ []) || decide (index + 1 = totalChunks))

/-- Modelled from the spec: the session created on first chunk arrival
for a new uploadId; totalChunks is fixed from that first chunk. -/
def mkSession (totalChunks totalSize now : Nat) : UploadSession :=
  ⟨totalChunks, totalSize, [], .receiving, now⟩

/-- Modelled from the spec: persist one chunk into the session's scratch
area keyed by index (overwriting a duplicate index), stamping arrival. -/
def storeChunk (s : UploadSession) (index : Nat) (payload : List Nat) (now : Nat) :
    UploadSession :=
  { s with chunks := setAssoc s.chunks index payload, lastChunkAt := now }

/-- Modelled from the spec: the compare-and-set status transition from
receiving to reassembling; it succeeds for a caller exactly when the
status still is receiving, and fails (none) for every later caller. -/
def tryStartReassembly (s : UploadSession) : Option UploadSession :=
  if s.status = .receiving then some { s with status := .reassembling } else none

/-- Modelled from the spec: the Tracker's completion check run after each
recorded chunk; when every declared chunk is present it fires the
compare-and-set transition, otherwise it leaves the session unchanged. -/
def checkComplete (s : UploadSession) : UploadSession :=
  if receivedCount s = s.totalChunks then (tryStartReassembly s).getD s else s

/-- Modelled from the spec: the Chunk Receiver contract
receive(uploadId, index, totalChunks, payload). It validates the chunk
against the session recorded for uploadId (if any), persists it into the
scratch area, and lets the Tracker check completion; validation failure
is reported as a ValidationError without touching any state. -/
def receive (cfg : Config) (reg : List (String × UploadSession)) (uploadId : String)
    (index totalChunks totalSize : Nat) (payload : List Nat) (now : Nat) :
    Except UploadError (List (String × UploadSession)) :=
  let sess := getAssoc uploadId reg
  if chunkValid cfg sess index totalChunks payload then
    let s0 := sess.getD (mkSession totalChunks totalSize now)
    .ok (setAssoc reg uploadId (checkComplete (storeChunk s0 index payload now)))
  else
    .error .validationFailed

/-- The registry left by a receive call: a rejected chunk leaves the
registry unchanged. -/
def receiveOr (cfg : Config) (reg : List (String × UploadSession)) (uploadId : String)
    (index totalChunks totalSize : Nat) (payload : List Nat) (now : Nat) :
    List (String × UploadSession) :=
  match receive cfg reg uploadId index totalChunks totalSize payload now with
  | .ok reg2 => reg2
  | .error _ => reg

/-- Read the chunks stored at indices i, i+1, ..., i+count-1 in ascending
order and concatenate their payloads; none when any of them is absent. -/
def readChunksFrom (chunks : List (Nat × List Nat)) (i : Nat) : Nat → Option (List Nat)
  | 0 => some []
  | count + 1 =>
    match getAssoc i chunks with
    | none => none
    | some payload =>
      match readChunksFrom chunks (i + 1) count with
      | none => none
      | some rest => some (payload ++ rest)

/-- Modelled from the spec: the Reassembler. It reads the chunks strictly
in index order 0..totalChunks-1 and concatenates them, rechecking at read
time that every expected chunk is present and failing with
IncompleteUploadError otherwise. -/
def reassemble (s : UploadSession) : Except UploadError (List Nat) :=
  match readChunksFrom s.chunks 0 s.totalChunks with
  | some bytes => .ok bytes
  | none => .error .incompleteUpload

/-- Modelled from the spec: the content digest of the reassembled bytes.
The spec assumes a collision-free cryptographic hash (collisions treated
as identity), so the digest is modelled as the content itself. -/
def contentHash (bytes : List Nat) : List Nat := bytes

/-- Modelled from the spec: the permanent-storage path derived from a
content hash. -/
def hashPath (h : List Nat) : String := ⟨h.map Char.ofNat⟩

/-- Modelled from the spec: a StoredFile reference. -/
structure StoredFile where
  contentHash : List Nat
  storagePath : String
deriving DecidableEq

/-- Modelled from the spec: the permanent storage's content-hash index;
each entry is one physical file, keyed by content hash. -/
structure Storage where
  files : List (List Nat × String)
deriving DecidableEq

/-- Result of the metadata store's insertIfAbsent primitive. -/
structure InsertResult where
  inserted : Bool
  stored : StoredFile
deriving DecidableEq

/-- Modelled from the spec: the atomic insert-if-absent operation on the
content-hash index; when the hash is present the existing StoredFile is
returned, otherwise the new entry is committed. -/
def insertIfAbsent (st : Storage) (h : List Nat) (path : String) : InsertResult × Storage :=
  match getAssoc h st.files with
  | some existingPath => (⟨false, ⟨h, existingPath⟩⟩, st)
  | none => (⟨true, ⟨h, path⟩⟩, ⟨(h, path) :: st.files⟩)

/-- Result of deduplication: whether the content is new, and the (new or
reused) StoredFile reference. -/
structure DedupResult where
  isNew : Bool
  stored : StoredFile
deriving DecidableEq

/-- Modelled from the spec: the Content Deduplicator. It hashes the
reassembled bytes and runs the atomic check-and-reserve on the
content-hash index, reusing the existing stored object when present. -/
def deduplicate (st : Storage) (bytes : List Nat) : DedupResult × Storage :=
  let r := insertIfAbsent st (contentHash bytes) (hashPath (contentHash bytes))
  (⟨r.1.inserted, r.1.stored⟩, r.2)

/-- Modelled from the spec: the finalized reference reported back to the
caller on completion. -/
structure FinalizedFile where
  stored : StoredFile
  isNew : Bool
deriving DecidableEq

/-- Modelled from the spec: the post-trigger pipeline run on a session
whose completion transition was won: reassembly, deduplication, and
finalization. On success the per-chunk scratch files are deleted and the
session is marked completed; a missing chunk marks it failed. -/
def runPipeline (st : Storage) (s : UploadSession) :
    UploadSession × Storage × Option FinalizedFile :=
  match reassemble s with
  | .error _ => ({ s with status := .failed }, st, none)
  | .ok bytes =>
    let d := deduplicate st bytes
    ({ s with status := .completed, chunks := [] }, d.2, some ⟨d.1.stored, d.1.isNew⟩)

/-- Modelled from the spec: one completion trigger as raced by a caller
observing a final chunk: it attempts the compare-and-set and runs the
pipeline only when it wins, otherwise it observes the new status and
does nothing. -/
def completionAttempt (st : Storage) (s : UploadSession) :
    UploadSession × Storage × Option FinalizedFile :=
  match tryStartReassembly s with
  | none => (s, st, none)
  | some s2 => runPipeline st s2

/-- Run n racing completion triggers one after the other (the serialized
interleaving of n concurrent callers), counting pipeline executions. -/
def runTriggers (st : Storage) (s : UploadSession) : Nat → UploadSession × Storage × Nat
  | 0 => (s, st, 0)
  | n + 1 =>
    match tryStartReassembly s with
    | none => runTriggers st s n
    | some s2 =>
      let r := runPipeline st s2
      let rest := runTriggers r.2.1 r.1 n
      (rest.1, rest.2.1, rest.2.2 + 1)

/-- Complete a list of uploads against permanent storage, threading the
storage state through the pipeline runs. -/
def completeAll (st : Storage) (sessions : List UploadSession) : Storage :=
  sessions.foldl (fun acc s => (runPipeline acc s).2.1) st

/-- Modelled from the spec: progress exposed for client polling. -/
structure SessionProgress where
  bytesReceived : Nat
  bytesTotal : Nat
  percentage : Nat
deriving DecidableEq

/-- Total bytes persisted in the session's scratch area. -/
def bytesReceived (s : UploadSession) : Nat :=
  (s.chunks.map (fun c => c.2.length)).sum

/-- Modelled from the spec: the Tracker's progress report: bytes received
out of the declared total, with a completion percentage. -/
def sessionProgress (s : UploadSession) : SessionProgress :=
  ⟨bytesReceived s, s.totalSize,
    if s.totalSize = 0 then 0 else bytesReceived s * 100 / s.totalSize⟩

/-- Modelled from the spec: the background idle sweep applied to one
session: a session still receiving whose last chunk is older than the
idle window is marked failed and its scratch area is released. -/
def sweepSession (now timeout : Nat) (s : UploadSession) : UploadSession :=
  if s.status = .receiving ∧ s.lastChunkAt + timeout < now then
    { s with status := .failed, chunks := [] }
  else s

/-- Modelled from the spec: the background sweep over the registry. -/
def sweep (reg : List (String × UploadSession)) (now timeout : Nat) :
    List (String × UploadSession) :=
  reg.map (fun p => (p.1, sweepSession now timeout p.2))

/-- Deliver the chunks payloads i (for i in order) of one upload through
receive, stopping at the first error. -/
def deliverAll (cfg : Config) (reg : List (String × UploadSession)) (uploadId : String)
    (totalChunks totalSize : Nat) (payloads : Nat → List Nat) (order : List Nat) (now : Nat) :
    Except UploadError (List (String × UploadSession)) :=
  order.foldlM
    (fun acc i => receive cfg acc uploadId i totalChunks totalSize (payloads i) now) reg

/-! ### Part IV: the claims -/

/-- JS truthiness of an optional string value: present and non-empty.
This is what the guards `if (route.query.page)` and `if (!uuid)` in the
source test, and hence what present and missing mean there. -/
def jsTruthy : Option String → Bool
  | none => false
  | some s => s ≠ ""

/-- A concrete in-flight session holding one 5-byte chunk out of two
declared chunks of a 10-byte upload. -/
def sessionOneOfTwo : UploadSession := ⟨2, 10, [(0, [1, 2, 3, 4, 5])], .receiving, 0⟩

/-- Apply a trace of chunk-arrival events (index, payload, time) for one
upload through the receiver; a rejected chunk leaves the registry as it
was. -/
def receiveEvents (cfg : Config) (reg : List (String × UploadSession)) (uploadId : String)
    (totalChunks totalSize : Nat) (events : List (Nat × List Nat × Nat)) :
    List (String × UploadSession) :=
  events.foldl
    (fun acc e => receiveOr cfg acc uploadId e.1 totalChunks totalSize e.2.1 e.2.2) reg

/-- Store the payloads of the given indices, in order, into a scratch
area. -/
def applyChunks (payloads : Nat → List Nat) (chunks : List (Nat × List Nat))
    (order : List Nat) : List (Nat × List Nat) :=
  order.foldl (fun c i => setAssoc c i (payloads i)) chunks

/-- Permanent storage is well formed when its content-hash index holds
at most one entry per hash (its key list has no duplicates). -/
def storageOk (st : Storage) : Prop := (keysOf st.files).Nodup

/-- Number of physical files stored for a given content hash. -/
def countHash (st : Storage) (h : List Nat) : Nat :=
  st.files.countP (fun f => decide (f.1 = h))

/-- The chunk payloads of the C1 scenario: chunks 0 and 1 hold 4096
bytes, chunk 2 holds 2048 bytes. -/
def scenarioPayloads : Nat → List Nat :=
  fun i => if i = 2 then List.replicate 2048 2 else List.replicate 4096 i

/-- The invariant maintained by a session for which chunk k was never
delivered: it still is receiving, chunk k is absent from its scratch
area, and the scratch area holds distinct indices inside the declared
range. -/
def MissingChunkInv (n k : Nat) (s : UploadSession) : Prop :=
  s.totalChunks = n ∧ s.status = .receiving ∧ getAssoc k s.chunks = none ∧
    (keysOf s.chunks).Nodup ∧ ∀ j ∈ keysOf s.chunks, j < n

@[simp]
theorem getAssoc_nil {α β : Type} [DecidableEq α] (a : α) :
    getAssoc a ([] : List (α × β)) = none := rfl

@[simp]
theorem getAssoc_cons {α β : Type} [DecidableEq α] (a b : α) (c : β) (l : List (α × β)) :
    getAssoc a ((b, c) :: l) = if a = b then some c else getAssoc a l := rfl

@[simp]
theorem getAssoc_setAssoc_self {α β : Type} [DecidableEq α] (l : List (α × β)) (a : α) (v : β) :
    getAssoc a (setAssoc l a v) = some v := by
  induction l with
  | nil => simp [setAssoc]
  | cons hd tl ih =>
    obtain ⟨b, c⟩ := hd
    by_cases hab : a = b <;> simp [setAssoc, hab, ih]

theorem getAssoc_setAssoc_ne {α β : Type} [DecidableEq α] (l : List (α × β)) (a x : α) (v : β)
    (h : x ≠ a) : getAssoc x (setAssoc l a v) = getAssoc x l := by
  induction l with
  | nil => simp [setAssoc, h]
  | cons hd tl ih =>
    obtain ⟨b, c⟩ := hd
    by_cases hab : a = b
    · subst hab; simp [setAssoc, h]
    · by_cases hxb : x = b <;> simp [setAssoc, hab, hxb, ih]

/-- Overwriting a key with the value it already holds leaves the list unchanged. -/
theorem setAssoc_eq_self {α β : Type} [DecidableEq α] (l : List (α × β)) (a : α) (v : β)
    (h : getAssoc a l = some v) : setAssoc l a v = l := by
  induction l with
  | nil => simp [getAssoc] at h
  | cons hd tl ih =>
    obtain ⟨b, c⟩ := hd
    by_cases hab : a = b
    · subst hab
      simp [getAssoc] at h
      simp [setAssoc, h]
    · simp [getAssoc, hab] at h
      simp [setAssoc, hab, ih h]

theorem length_setAssoc_of_mem {α β : Type} [DecidableEq α] (l : List (α × β)) (a : α) (v w : β)
    (h : getAssoc a l = some w) : (setAssoc l a v).length = l.length := by
  induction l with
  | nil => simp [getAssoc] at h
  | cons hd tl ih =>
    obtain ⟨b, c⟩ := hd
    by_cases hab : a = b
    · simp [setAssoc, hab]
    · simp [getAssoc, hab] at h
      simp [setAssoc, hab, ih h]

theorem length_setAssoc_of_new {α β : Type} [DecidableEq α] (l : List (α × β)) (a : α) (v : β)
    (h : getAssoc a l = none) : (setAssoc l a v).length = l.length + 1 := by
  induction l with
  | nil => simp [setAssoc]
  | cons hd tl ih =>
    obtain ⟨b, c⟩ := hd
    by_cases hab : a = b
    · simp [getAssoc, hab] at h
    · simp [getAssoc, hab] at h
      simp [setAssoc, hab, ih h]

theorem getAssoc_eq_none_iff {α β : Type} [DecidableEq α] (l : List (α × β)) (a : α) :
    getAssoc a l = none ↔ a ∉ keysOf l := by
  induction l with
  | nil => simp [keysOf]
  | cons hd tl ih =>
    obtain ⟨b, c⟩ := hd
    by_cases hab : a = b
    · simp [keysOf, getAssoc, hab]
    · simp [keysOf, getAssoc, hab] at ih ⊢
      tauto

theorem keysOf_setAssoc_of_mem {α β : Type} [DecidableEq α] (l : List (α × β)) (a : α) (v w : β)
    (h : getAssoc a l = some w) : keysOf (setAssoc l a v) = keysOf l := by
  induction l with
  | nil => simp [getAssoc] at h
  | cons hd tl ih =>
    obtain ⟨b, c⟩ := hd
    by_cases hab : a = b
    · subst hab; simp [setAssoc, keysOf]
    · simp [getAssoc, hab] at h
      simp [setAssoc, keysOf, hab] at ih ⊢
      exact ih h

theorem keysOf_setAssoc_of_new {α β : Type} [DecidableEq α] (l : List (α × β)) (a : α) (v : β)
    (h : getAssoc a l = none) : keysOf (setAssoc l a v) = keysOf l ++ [a] := by
  induction l with
  | nil => simp [setAssoc, keysOf]
  | cons hd tl ih =>
    obtain ⟨b, c⟩ := hd
    by_cases hab : a = b
    · simp [getAssoc, hab] at h
    · simp [getAssoc, hab] at h
      simp [setAssoc, keysOf, hab] at ih ⊢
      exact ih h

/-- C9: on the admin files page, checkRouteQuery issues exactly one
filesStore.get call with the admin flag and no page when the page query
value is absent (falsy), exactly one call carrying the parsed page
number when it is present and parses to a number, and two identical
admin-only calls in the same invocation when it is present but parses
to NaN (modelled as the parse function returning none). -/
theorem checkRouteQuery_call_counts (toNumber : String → Option Int) (pageQuery : Option String) :
    (jsTruthy pageQuery = false → checkRouteQuery toNumber pageQuery = [⟨true, none⟩]) ∧
    (∀ s n, pageQuery = some s → s ≠ "" → toNumber s = some n →
      checkRouteQuery toNumber pageQuery = [⟨true, some n⟩]) ∧
    (∀ s, pageQuery = some s → s ≠ "" → toNumber s = none →
      checkRouteQuery toNumber pageQuery = [⟨true, none⟩, ⟨true, none⟩]) := by
  refine ⟨?_, ?_, ?_⟩
  · intro h
    cases pageQuery with
    | none => rfl
    | some s =>
      simp [jsTruthy] at h
      simp [checkRouteQuery, h]
  · rintro s n rfl hs hn
    simp [checkRouteQuery, hs, hn]
  · rintro s rfl hs hn
    simp [checkRouteQuery, hs, hn]

/-- Witness for C9: a present page value that parses to NaN yields two
admin-only store calls. -/
theorem checkRouteQuery_call_counts_witness :
    checkRouteQuery (fun s => if s = "7" then some 7 else none) (some "abc") =
      [⟨true, none⟩, ⟨true, none⟩] :=
  (checkRouteQuery_call_counts (fun s => if s = "7" then some 7 else none)
    (some "abc")).2.2 "abc" rfl (by decide) (by decide)

/-- C10: the album-links route replies 400 (and returns no links)
exactly when the uuid path parameter is missing (falsy) or no album with
that uuid belongs to the requesting user; otherwise it replies with
exactly the links whose albumId is the found album's id and whose userId
is the requester's id, projected to the selected fields. -/
theorem getAlbumLinks_spec (albums : List Album) (links : List Link) (userId : Nat)
    (uuidParam : Option String) :
    ((∃ m, getAlbumLinks albums links userId uuidParam = .badRequest m) ↔
      (jsTruthy uuidParam = false ∨
        ∃ u, uuidParam = some u ∧ ∀ a ∈ albums, ¬(a.uuid = u ∧ a.userId = userId))) ∧
    (∀ u album, uuidParam = some u → u ≠ "" →
      albums.find? (fun a => a.uuid == u && a.userId == userId) = some album →
      getAlbumLinks albums links userId uuidParam =
        .ok ((links.filter (fun l => decide (l.albumId = album.id ∧ l.userId = userId))).map
          Link.toView)) := by
  constructor
  · cases uuidParam with
    | none =>
      constructor
      · intro _
        exact Or.inl rfl
      · intro _
        exact ⟨_, rfl⟩
    | some u =>
      by_cases hu : u = ""
      · subst hu
        constructor
        · intro _
          exact Or.inl rfl
        · intro _
          exact ⟨_, rfl⟩
      · have htr : jsTruthy (some u) = true := by simp [jsTruthy, hu]
        cases hfind : albums.find? (fun a => a.uuid == u && a.userId == userId) with
        | none =>
          have hnone := hfind
          rw [List.find?_eq_none] at hnone
          have heval : getAlbumLinks albums links userId (some u) =
              .badRequest "Album does not exist or does not belong to the user" := by
            simp [getAlbumLinks, hu, hfind]
          constructor
          · intro _
            right
            refine ⟨u, rfl, fun a ha => ?_⟩
            have hna := hnone a ha
            simp at hna
            tauto
          · intro _
            exact ⟨_, heval⟩
        | some album =>
          have hmem := List.mem_of_find?_eq_some hfind
          have hprop := List.find?_some hfind
          simp at hprop
          have heval : getAlbumLinks albums links userId (some u) =
              .ok ((links.filter
                (fun l => l.albumId == album.id && l.userId == userId)).map Link.toView) := by
            simp [getAlbumLinks, hu, hfind]
          constructor
          · rintro ⟨m, hm⟩
            rw [heval] at hm
            cases hm
          · rintro (h | ⟨u2, hu2, hall⟩)
            · rw [htr] at h
              cases h
            · cases hu2
              exact absurd ⟨hprop.1, hprop.2⟩ (hall album hmem)
  · rintro u album rfl hu hfind
    have heval : getAlbumLinks albums links userId (some u) =
        .ok ((links.filter
          (fun l => l.albumId == album.id && l.userId == userId)).map Link.toView) := by
      simp [getAlbumLinks, hu, hfind]
    rw [heval]
    have hfc : links.filter (fun l => l.albumId == album.id && l.userId == userId) =
        links.filter (fun l => decide (l.albumId = album.id ∧ l.userId = userId)) := by
      apply List.filter_congr
      intro l _
      by_cases h1 : l.albumId = album.id <;> by_cases h2 : l.userId = userId <;>
        simp [h1, h2]
    rw [hfc]

/-- Structural facts about the Tracker's completion check: it never
touches the scratch area or the declared sizes. -/
theorem checkComplete_chunks (s : UploadSession) : (checkComplete s).chunks = s.chunks := by
  simp only [checkComplete, tryStartReassembly]
  split
  · split <;> rfl
  · rfl

theorem checkComplete_totalChunks (s : UploadSession) :
    (checkComplete s).totalChunks = s.totalChunks := by
  simp only [checkComplete, tryStartReassembly]
  split
  · split <;> rfl
  · rfl

theorem checkComplete_lastChunkAt (s : UploadSession) :
    (checkComplete s).lastChunkAt = s.lastChunkAt := by
  simp only [checkComplete, tryStartReassembly]
  split
  · split <;> rfl
  · rfl

theorem checkComplete_status_cases (s : UploadSession) :
    (checkComplete s).status = s.status ∨ (checkComplete s).status = .reassembling := by
  simp only [checkComplete, tryStartReassembly]
  split
  · split
    · right
      rfl
    · left
      rfl
  · left
    rfl

/-- Characterization of a successful receive call. -/
theorem receive_eq_ok_iff (cfg : Config) (reg : List (String × UploadSession))
    (uploadId : String) (i n tS : Nat) (p : List Nat) (now : Nat)
    (reg2 : List (String × UploadSession)) :
    receive cfg reg uploadId i n tS p now = .ok reg2 ↔
      (chunkValid cfg (getAssoc uploadId reg) i n p = true ∧
        reg2 = setAssoc reg uploadId
          (checkComplete
            (storeChunk ((getAssoc uploadId reg).getD (mkSession n tS now)) i p now))) := by
  unfold receive
  by_cases h : chunkValid cfg (getAssoc uploadId reg) i n p = true
  · simp [h, eq_comm]
  · simp [h]

/-- Propositional reading of chunk validation. -/
theorem chunkValid_eq_true_iff (cfg : Config) (sess : Option UploadSession) (i n : Nat)
    (p : List Nat) :
    chunkValid cfg sess i n p = true ↔
      (i < n ∧ p.length ≤ cfg.chunkSizeLimit ∧
        (∀ s, sess = some s → s.totalChunks = n) ∧ (p = [] → i + 1 = n)) := by
  cases sess with
  | none =>
    simp [chunkValid]
    tauto
  | some s =>
    simp [chunkValid]
    tauto

/-- Sum of stored payload sizes grows by the payload size when a chunk
is stored under a fresh index. -/
theorem sumLens_setAssoc_new (c : List (Nat × List Nat)) (i : Nat) (p : List Nat)
    (h : getAssoc i c = none) :
    ((setAssoc c i p).map (fun x => x.2.length)).sum =
      (c.map (fun x => x.2.length)).sum + p.length := by
  induction c with
  | nil => simp [setAssoc]
  | cons hd tl ih =>
    obtain ⟨j, q⟩ := hd
    by_cases hij : i = j
    · simp [getAssoc, hij] at h
    · simp [getAssoc, hij] at h
      simp [setAssoc, hij, ih h, Nat.add_assoc]

/-- Witness for C10: a user with one album and two links, only one of
which belongs to that album, retrieves exactly that link projected. -/
theorem getAlbumLinks_spec_witness :
    getAlbumLinks [⟨5, "a1", 2⟩]
      [⟨"l1", "id1", 0, true, false, none, 1, 2, 5, 2⟩,
        ⟨"l2", "id2", 0, true, false, none, 1, 2, 6, 2⟩] 2 (some "a1") =
      .ok [⟨"l1", "id1", 0, true, false, none, 1, 2⟩] := by
  have h := (getAlbumLinks_spec [⟨5, "a1", 2⟩]
    [⟨"l1", "id1", 0, true, false, none, 1, 2, 5, 2⟩,
      ⟨"l2", "id2", 0, true, false, none, 1, 2, 6, 2⟩] 2 (some "a1")).2 "a1" ⟨5, "a1", 2⟩
    rfl (by decide) (by decide)
  rw [h]
  decide

/-- C7 counterexample: the claim says each progress update delivered to
the client carries the current received-byte count alongside the
percentage, but for a session that has received 5 bytes the update the
onProgress callback issues carries the constant 0 as its byte count. -/
theorem onProgress_drops_byte_count :
    bytesReceived sessionOneOfTwo = 5 ∧
    (onProgressUpdate "u" 50).progress = 50 ∧
    (onProgressUpdate "u" 50).bytesSent = 0 ∧
    (onProgressUpdate "u" 50).bytesSent ≠ bytesReceived sessionOneOfTwo := by
  decide

/-- C7 (amended): the tracker exposes, per session, the bytes received
out of the declared total and a percentage (and a freshly stored chunk
grows the received-byte count by its payload size), while each progress
update delivered to the client carries the percentage with a byte-count
argument that is always 0; the byte total itself is recorded only once,
at upload start. -/
theorem progress_reporting_amended :
    (∀ uuid pr, (onProgressUpdate uuid pr).progress = pr ∧
      (onProgressUpdate uuid pr).bytesSent = 0) ∧
    (∀ uuid name mt size, (onStartEntry uuid name mt size).bytesTotal = size ∧
      (onStartEntry uuid name mt size).bytesSent = 0) ∧
    (∀ s, (sessionProgress s).bytesReceived = bytesReceived s ∧
      (sessionProgress s).bytesTotal = s.totalSize) ∧
    (∀ cfg reg uploadId i n tS p now reg2 s s2,
      receive cfg reg uploadId i n tS p now = .ok reg2 →
      getAssoc uploadId reg = some s → getAssoc i s.chunks = none →
      getAssoc uploadId reg2 = some s2 →
      bytesReceived s2 = bytesReceived s + p.length) := by
  refine ⟨fun uuid pr => ⟨rfl, rfl⟩, fun uuid name mt size => ⟨rfl, rfl⟩,
    fun s => ⟨rfl, rfl⟩, ?_⟩
  intro cfg reg uploadId i n tS p now reg2 s s2 hok hs hfresh hs2
  rw [receive_eq_ok_iff] at hok
  obtain ⟨-, rfl⟩ := hok
  rw [getAssoc_setAssoc_self] at hs2
  rw [hs] at hs2
  injection hs2 with hs2
  subst hs2
  show bytesReceived (checkComplete (storeChunk s i p now)) = _
  unfold bytesReceived
  rw [checkComplete_chunks]
  show ((setAssoc s.chunks i p).map (fun x => x.2.length)).sum = _
  rw [sumLens_setAssoc_new s.chunks i p hfresh]

/-- Witness for the amended C7: storing a 3-byte chunk under a fresh
index grows a 5-byte session to 8 received bytes. -/
theorem progress_reporting_amended_witness :
    receive ⟨10⟩ [("u", ⟨2, 10, [(0, [1, 2, 3, 4, 5])], .receiving, 0⟩)] "u" 1 2 10
        [9, 9, 9] 1 =
      .ok [("u", ⟨2, 10, [(0, [1, 2, 3, 4, 5]), (1, [9, 9, 9])], .reassembling, 1⟩)] ∧
    bytesReceived ⟨2, 10, [(0, [1, 2, 3, 4, 5]), (1, [9, 9, 9])], .reassembling, 1⟩ =
      bytesReceived ⟨2, 10, [(0, [1, 2, 3, 4, 5])], .receiving, 0⟩ + 3 :=
  ⟨by decide,
    progress_reporting_amended.2.2.2 ⟨10⟩
      [("u", ⟨2, 10, [(0, [1, 2, 3, 4, 5])], .receiving, 0⟩)] "u" 1 2 10 [9, 9, 9] 1
      [("u", ⟨2, 10, [(0, [1, 2, 3, 4, 5]), (1, [9, 9, 9])], .reassembling, 1⟩)]
      ⟨2, 10, [(0, [1, 2, 3, 4, 5])], .receiving, 0⟩
      ⟨2, 10, [(0, [1, 2, 3, 4, 5]), (1, [9, 9, 9])], .reassembling, 1⟩
      (by decide) (by decide) (by decide) (by decide)⟩

/-- The sweep acts pointwise on the registry. -/
theorem getAssoc_sweep (reg : List (String × UploadSession)) (now timeout : Nat)
    (uploadId : String) :
    getAssoc uploadId (sweep reg now timeout) =
      (getAssoc uploadId reg).map (sweepSession now timeout) := by
  induction reg with
  | nil => rfl
  | cons hd tl ih =>
    obtain ⟨j, s⟩ := hd
    by_cases hj : uploadId = j
    · simp [sweep, getAssoc, hj]
    · simp only [sweep, List.map_cons, getAssoc_cons, if_neg hj] at ih ⊢
      exact ih

/-- C8: a session that is still receiving and has received no chunk for
longer than the idle window is transitioned to failed by the background
sweep and its scratch storage is emptied; the receiver itself never
marks a session failed (a session observed failed after a successful
receive was failed before it), so reclamation is the sweep's job, not a
per-chunk check. -/
theorem idle_sweep_reclaims :
    (∀ reg now timeout uploadId s,
      getAssoc uploadId reg = some s → s.status = .receiving →
      s.lastChunkAt + timeout < now →
      getAssoc uploadId (sweep reg now timeout) =
        some { s with status := .failed, chunks := [] }) ∧
    (∀ cfg reg uploadId i n tS p now reg2 s2,
      receive cfg reg uploadId i n tS p now = .ok reg2 →
      getAssoc uploadId reg2 = some s2 → s2.status = .failed →
      ∃ s0, getAssoc uploadId reg = some s0 ∧ s0.status = .failed) := by
  constructor
  · intro reg now timeout uploadId s hs hst hidle
    rw [getAssoc_sweep, hs]
    simp [sweepSession, hst, hidle]
  · intro cfg reg uploadId i n tS p now reg2 s2 hok hs2 hfail
    rw [receive_eq_ok_iff] at hok
    obtain ⟨-, rfl⟩ := hok
    rw [getAssoc_setAssoc_self] at hs2
    injection hs2 with hs2
    subst hs2
    rcases checkComplete_status_cases
        (storeChunk ((getAssoc uploadId reg).getD (mkSession n tS now)) i p now) with
      hcc | hcc
    · rw [hfail] at hcc
      cases hget : getAssoc uploadId reg with
      | none =>
        rw [hget] at hcc
        cases hcc
      | some s0 =>
        rw [hget] at hcc
        exact ⟨s0, rfl, hcc.symm⟩
    · rw [hfail] at hcc
      cases hcc

/-- Witness for C8: a session with 1 of 5 chunks, idle past the window,
is failed and emptied by the sweep. -/
theorem idle_sweep_reclaims_witness :
    getAssoc "u" (sweep [("u", ⟨5, 5, [(0, [1])], .receiving, 0⟩)] 100 10) =
      some ⟨5, 5, [], .failed, 0⟩ :=
  idle_sweep_reclaims.1 [("u", ⟨5, 5, [(0, [1])], .receiving, 0⟩)] 100 10 "u"
    ⟨5, 5, [(0, [1])], .receiving, 0⟩ rfl rfl (by decide)

/-- The compare-and-set fails for every caller that does not observe the
receiving status. -/
theorem tryStartReassembly_eq_none (s : UploadSession) (h : s.status ≠ .receiving) :
    tryStartReassembly s = none := by
  simp [tryStartReassembly, h]

/-- Racing completion triggers on a session no longer receiving all
observe the new status and change nothing. -/
theorem runTriggers_stuck (st : Storage) (s : UploadSession) (n : Nat)
    (h : s.status ≠ .receiving) : runTriggers st s n = (s, st, 0) := by
  induction n with
  | zero => rfl
  | succ n ih => simp [runTriggers, tryStartReassembly_eq_none s h, ih]

/-- The pipeline leaves a session completed or failed, never receiving. -/
theorem runPipeline_status (st : Storage) (s : UploadSession) :
    (runPipeline st s).1.status = .completed ∨ (runPipeline st s).1.status = .failed := by
  unfold runPipeline
  cases reassemble s with
  | error e => simp
  | ok bytes => simp

/-- Among any number of serialized racing completion triggers, at most
one wins the compare-and-set and runs the pipeline. -/
theorem runTriggers_wins_le_one (st : Storage) (s : UploadSession) (n : Nat) :
    (runTriggers st s n).2.2 ≤ 1 := by
  induction n generalizing st s with
  | zero => simp [runTriggers]
  | succ n ih =>
    cases h : tryStartReassembly s with
    | none =>
      simpa [runTriggers, h] using ih st s
    | some s2 =>
      have hst : (runPipeline st s2).1.status ≠ .receiving := by
        rcases runPipeline_status st s2 with h2 | h2 <;> simp [h2]
      have hrun := runTriggers_stuck (runPipeline st s2).2.1 (runPipeline st s2).1 n hst
      simp [runTriggers, h, hrun]

/-- C4: for any number of racing completion triggers on one upload, the
pipeline (reassembly, deduplication, finalization) executes at most
once: the receiving-to-reassembling transition is a compare-and-set
that only the caller observing receiving can win, and every caller that
observes another status does nothing. -/
theorem completion_cas_exactly_once :
    (∀ st s n, (runTriggers st s n).2.2 ≤ 1) ∧
    (∀ s, s.status ≠ .receiving → tryStartReassembly s = none) ∧
    (∀ st s n, s.status ≠ .receiving → runTriggers st s n = (s, st, 0)) :=
  ⟨runTriggers_wins_le_one, tryStartReassembly_eq_none,
    fun st s n h => runTriggers_stuck st s n h⟩

/-- Witness for C4: five racing triggers on a completed session all
no-op. -/
theorem completion_cas_exactly_once_witness :
    UploadSession.status ⟨1, 1, [], .completed, 0⟩ ≠ .receiving ∧
    runTriggers ⟨[]⟩ ⟨1, 1, [], .completed, 0⟩ 5 = (⟨1, 1, [], .completed, 0⟩, ⟨[]⟩, 0) :=
  ⟨by decide, completion_cas_exactly_once.2.2 ⟨[]⟩ ⟨1, 1, [], .completed, 0⟩ 5 (by decide)⟩

/-- C6: receive fails with a ValidationError exactly when the chunk
index is out of the declared range, the payload exceeds the chunk-size
limit, the declared totalChunks conflicts with the value recorded for
the uploadId, or the payload is empty though the chunk is not the final
one; and every rejection leaves the registry unchanged. -/
theorem receive_validation_iff (cfg : Config) (reg : List (String × UploadSession))
    (uploadId : String) (i n tS : Nat) (p : List Nat) (now : Nat) :
    (receive cfg reg uploadId i n tS p now = .error .validationFailed ↔
      (n ≤ i ∨ cfg.chunkSizeLimit < p.length ∨
        (∃ s, getAssoc uploadId reg = some s ∧ s.totalChunks ≠ n) ∨
        (p = [] ∧ i + 1 ≠ n))) ∧
    (∀ e, receive cfg reg uploadId i n tS p now = .error e →
      receiveOr cfg reg uploadId i n tS p now = reg) := by
  have hiff := chunkValid_eq_true_iff cfg (getAssoc uploadId reg) i n p
  constructor
  · constructor
    · intro h
      have hnv : ¬(i < n ∧ p.length ≤ cfg.chunkSizeLimit ∧
          (∀ s, getAssoc uploadId reg = some s → s.totalChunks = n) ∧
          (p = [] → i + 1 = n)) := by
        rw [← hiff]
        intro hcv
        simp [receive, hcv] at h
      by_cases h1 : i < n
      · by_cases h2 : p.length ≤ cfg.chunkSizeLimit
        · by_cases h3 : ∀ s, getAssoc uploadId reg = some s → s.totalChunks = n
          · right
            right
            right
            by_cases h4 : p = []
            · refine ⟨h4, fun h5 => ?_⟩
              exact hnv ⟨h1, h2, h3, fun _ => h5⟩
            · exact absurd ⟨h1, h2, h3, fun hp => absurd hp h4⟩ hnv
          · right
            right
            left
            cases hget : getAssoc uploadId reg with
            | none =>
              exfalso
              apply h3
              intro s hs
              rw [hget] at hs
              cases hs
            | some s =>
              refine ⟨s, rfl, fun hsn => ?_⟩
              apply h3
              intro s2 hs2
              rw [hget] at hs2
              injection hs2 with hs2
              rw [← hs2]
              exact hsn
        · right
          left
          omega
      · left
        omega
    · intro hcond
      have hnv : ¬ chunkValid cfg (getAssoc uploadId reg) i n p = true := by
        rw [hiff]
        rintro ⟨h1, h2, h3, h4⟩
        rcases hcond with h | h | ⟨s, hs, hsn⟩ | ⟨hp, hf⟩
        · omega
        · omega
        · exact hsn (h3 s hs)
        · exact hf (h4 hp)
      simp [receive, hnv]
  · intro e he
    simp [receiveOr, he]

/-- Witness for C6: a chunk with index 3 of 3 declared chunks is
rejected with a ValidationError and the registry is untouched. -/
theorem receive_validation_iff_witness :
    receive ⟨10⟩ [] "u" 3 3 3 [9] 0 = .error .validationFailed ∧
    receiveOr ⟨10⟩ [] "u" 3 3 3 [9] 0 = [] :=
  ⟨(receive_validation_iff ⟨10⟩ [] "u" 3 3 3 [9] 0).1.mpr (Or.inl (by decide)),
    (receive_validation_iff ⟨10⟩ [] "u" 3 3 3 [9] 0).2 .validationFailed
      ((receive_validation_iff ⟨10⟩ [] "u" 3 3 3 [9] 0).1.mpr (Or.inl (by decide)))⟩

/-- A session that is not receiving is untouched by the completion
check. -/
theorem checkComplete_of_not_receiving (s : UploadSession) (h : s.status ≠ .receiving) :
    checkComplete s = s := by
  unfold checkComplete
  split
  · unfold tryStartReassembly
    rw [if_neg h]
    rfl
  · rfl

/-- A session that is still missing chunks is untouched by the
completion check. -/
theorem checkComplete_of_incomplete (s : UploadSession)
    (h : ¬ receivedCount s = s.totalChunks) : checkComplete s = s := by
  unfold checkComplete
  rw [if_neg h]

/-- After the completion check sees a complete session, the session is
never left in the receiving status. -/
theorem checkComplete_complete_not_receiving (v : UploadSession)
    (hc : receivedCount v = v.totalChunks) : (checkComplete v).status ≠ .receiving := by
  unfold checkComplete
  rw [if_pos hc]
  unfold tryStartReassembly
  by_cases hvs : v.status = .receiving
  · rw [if_pos hvs]
    simp
  · rw [if_neg hvs]
    exact hvs

/-- The completion check is idempotent, even across a later arrival-time
stamp: re-checking the result of a completion check changes nothing. -/
theorem checkComplete_repeat (v : UploadSession) (t : Nat) :
    checkComplete { checkComplete v with lastChunkAt := t } =
      { checkComplete v with lastChunkAt := t } := by
  by_cases hc : receivedCount { checkComplete v with lastChunkAt := t } =
      { checkComplete v with lastChunkAt := t }.totalChunks
  · apply checkComplete_of_not_receiving
    show (checkComplete v).status ≠ .receiving
    apply checkComplete_complete_not_receiving
    have h1 : receivedCount { checkComplete v with lastChunkAt := t } = receivedCount v := by
      show (checkComplete v).chunks.length = v.chunks.length
      rw [checkComplete_chunks]
    have h2 : { checkComplete v with lastChunkAt := t }.totalChunks = v.totalChunks := by
      show (checkComplete v).totalChunks = v.totalChunks
      rw [checkComplete_totalChunks]
    rw [h1, h2] at hc
    exact hc
  · exact checkComplete_of_incomplete _ hc

/-- C2: re-receiving an already stored (uploadId, index) chunk succeeds
again, overwrites the stored chunk with the same bytes, leaves the
completion count unchanged (no double count), leaves the status
unchanged (no second completion trigger), and leaves the reassembled
output exactly as after the first delivery. -/
theorem receive_idempotent (cfg : Config) (reg : List (String × UploadSession))
    (uploadId : String) (i n tS : Nat) (p : List Nat) (now now2 : Nat)
    (reg1 : List (String × UploadSession))
    (h : receive cfg reg uploadId i n tS p now = .ok reg1) :
    ∃ reg2 s1 s2, receive cfg reg1 uploadId i n tS p now2 = .ok reg2 ∧
      getAssoc uploadId reg1 = some s1 ∧ getAssoc uploadId reg2 = some s2 ∧
      s2.chunks = s1.chunks ∧ receivedCount s2 = receivedCount s1 ∧
      s2.status = s1.status ∧ reassemble s2 = reassemble s1 := by
  rw [receive_eq_ok_iff] at h
  obtain ⟨hv, rfl⟩ := h
  have hv2 := (chunkValid_eq_true_iff cfg (getAssoc uploadId reg) i n p).mp hv
  set v := storeChunk ((getAssoc uploadId reg).getD (mkSession n tS now)) i p now with hvdef
  set s1 := checkComplete v with hs1def
  have hs1n : s1.totalChunks = n := by
    rw [hs1def, checkComplete_totalChunks, hvdef]
    show ((getAssoc uploadId reg).getD (mkSession n tS now)).totalChunks = n
    cases hget : getAssoc uploadId reg with
    | none => rfl
    | some s => exact hv2.2.2.1 s hget
  have hs1geti : getAssoc i s1.chunks = some p := by
    rw [hs1def, checkComplete_chunks, hvdef]
    exact getAssoc_setAssoc_self _ i p
  have hvalid2 : chunkValid cfg (getAssoc uploadId (setAssoc reg uploadId s1)) i n p =
      true := by
    rw [getAssoc_setAssoc_self, chunkValid_eq_true_iff]
    refine ⟨hv2.1, hv2.2.1, fun s hs => ?_, hv2.2.2.2⟩
    injection hs with hs
    rw [← hs]
    exact hs1n
  have hsc : storeChunk s1 i p now2 = { s1 with lastChunkAt := now2 } := by
    unfold storeChunk
    rw [setAssoc_eq_self s1.chunks i p hs1geti]
  refine ⟨setAssoc (setAssoc reg uploadId s1) uploadId { s1 with lastChunkAt := now2 }, s1,
    { s1 with lastChunkAt := now2 }, ?_, getAssoc_setAssoc_self _ _ _,
    getAssoc_setAssoc_self _ _ _, rfl, rfl, rfl, rfl⟩
  rw [receive_eq_ok_iff]
  refine ⟨hvalid2, ?_⟩
  rw [getAssoc_setAssoc_self]
  congr 1
  show { s1 with lastChunkAt := now2 } = checkComplete (storeChunk s1 i p now2)
  rw [hsc, hs1def]
  exact (checkComplete_repeat v now2).symm

/-- Witness for C2: re-delivering the single chunk of a one-chunk upload
changes nothing observable. -/
theorem receive_idempotent_witness :
    receive ⟨10⟩ [] "u" 0 1 1 [7] 0 = .ok [("u", ⟨1, 1, [(0, [7])], .reassembling, 0⟩)] ∧
    (∃ reg2 s1 s2,
      receive ⟨10⟩ [("u", ⟨1, 1, [(0, [7])], .reassembling, 0⟩)] "u" 0 1 1 [7] 5 =
        .ok reg2 ∧
      getAssoc "u" [("u", ⟨1, 1, [(0, [7])], .reassembling, 0⟩)] = some s1 ∧
      getAssoc "u" reg2 = some s2 ∧ s2.chunks = s1.chunks ∧
      receivedCount s2 = receivedCount s1 ∧ s2.status = s1.status ∧
      reassemble s2 = reassemble s1) :=
  ⟨by decide,
    receive_idempotent ⟨10⟩ [] "u" 0 1 1 [7] 0 5
      [("u", ⟨1, 1, [(0, [7])], .reassembling, 0⟩)] (by decide)⟩

/-- Reading a range of chunks fails when one of them is absent. -/
theorem readChunksFrom_missing (chunks : List (Nat × List Nat)) (k : Nat) :
    ∀ (count i : Nat), i ≤ k → k < i + count → getAssoc k chunks = none →
      readChunksFrom chunks i count = none := by
  intro count
  induction count with
  | zero =>
    intro i h1 h2 _
    omega
  | succ count ih =>
    intro i h1 h2 hk
    unfold readChunksFrom
    by_cases hik : i = k
    · rw [hik, hk]
    · cases hgi : getAssoc i chunks with
      | none => rfl
      | some q =>
        rw [ih (i + 1) (by omega) (by omega) hk]

/-- The Reassembler's read-time recheck: a session missing one of its
declared chunks reassembles to an IncompleteUploadError. -/
theorem reassemble_missing (s : UploadSession) (k : Nat) (hk : k < s.totalChunks)
    (hnone : getAssoc k s.chunks = none) : reassemble s = .error .incompleteUpload := by
  unfold reassemble
  rw [readChunksFrom_missing s.chunks k s.totalChunks 0 (Nat.zero_le k) (by omega) hnone]

/-- A duplicate-free list of naturals below n that misses some value
below n has fewer than n elements. -/
theorem length_lt_of_nodup_bounded_missing (l : List Nat) (n k : Nat) (hnd : l.Nodup)
    (hb : ∀ j ∈ l, j < n) (hk : k < n) (hkl : k ∉ l) : l.length < n := by
  have hsub : l.toFinset ⊆ (Finset.range n).erase k := by
    intro j hj
    rw [List.mem_toFinset] at hj
    rw [Finset.mem_erase, Finset.mem_range]
    exact ⟨fun hjk => hkl (hjk ▸ hj), hb j hj⟩
  have hcard := Finset.card_le_card hsub
  rw [List.toFinset_card_of_nodup hnd] at hcard
  rw [Finset.card_erase_of_mem (Finset.mem_range.mpr hk), Finset.card_range] at hcard
  omega

/-- One receiver step that does not deliver chunk k preserves the
missing-chunk invariant. -/
theorem receiveOr_preserves_missing (cfg : Config) (reg : List (String × UploadSession))
    (uploadId : String) (n tS k : Nat) (hk : k < n) (i : Nat) (p : List Nat) (t : Nat)
    (hik : i ≠ k)
    (hinv : ∀ s, getAssoc uploadId reg = some s → MissingChunkInv n k s) :
    ∀ s, getAssoc uploadId (receiveOr cfg reg uploadId i n tS p t) = some s →
      MissingChunkInv n k s := by
  intro s hs
  unfold receiveOr at hs
  cases hok : receive cfg reg uploadId i n tS p t with
  | error e =>
    rw [hok] at hs
    exact hinv s hs
  | ok reg2 =>
    rw [hok] at hs
    rw [receive_eq_ok_iff] at hok
    obtain ⟨hv, rfl⟩ := hok
    rw [getAssoc_setAssoc_self] at hs
    injection hs with hs
    subst hs
    have hv2 := (chunkValid_eq_true_iff cfg (getAssoc uploadId reg) i n p).mp hv
    have hiltn : i < n := hv2.1
    set s0 := (getAssoc uploadId reg).getD (mkSession n tS t) with hs0def
    obtain ⟨h0n, h0st, h0k, h0nd, h0b⟩ :
        MissingChunkInv n k s0 := by
      rw [hs0def]
      cases hget : getAssoc uploadId reg with
      | none =>
        refine ⟨rfl, rfl, rfl, List.nodup_nil, ?_⟩
        intro j hj
        simp [keysOf, mkSession] at hj
      | some sx => exact hinv sx hget
    have key_facts : (keysOf (setAssoc s0.chunks i p)).Nodup ∧
        ∀ j ∈ keysOf (setAssoc s0.chunks i p), j < n := by
      cases hgi : getAssoc i s0.chunks with
      | some q =>
        rw [keysOf_setAssoc_of_mem _ _ _ _ hgi]
        exact ⟨h0nd, h0b⟩
      | none =>
        rw [keysOf_setAssoc_of_new _ _ _ hgi]
        have hni : i ∉ keysOf s0.chunks := (getAssoc_eq_none_iff _ _).mp hgi
        constructor
        · rw [List.nodup_append]
          refine ⟨h0nd, List.nodup_singleton i, ?_⟩
          intro a ha hb2
          simp at hb2
          subst hb2
          exact hni ha
        · intro j hj
          rw [List.mem_append] at hj
          rcases hj with hj | hj
          · exact h0b j hj
          · simp at hj
            subst hj
            exact hiltn
    have hgetk : getAssoc k (setAssoc s0.chunks i p) = none := by
      rw [getAssoc_setAssoc_ne _ _ _ _ (Ne.symm hik)]
      exact h0k
    have hlen : (setAssoc s0.chunks i p).length < n := by
      have hklen : (keysOf (setAssoc s0.chunks i p)).length < n :=
        length_lt_of_nodup_bounded_missing _ n k key_facts.1 key_facts.2 hk
          ((getAssoc_eq_none_iff _ _).mp hgetk)
      simpa [keysOf] using hklen
    have hcc : checkComplete (storeChunk s0 i p t) = storeChunk s0 i p t := by
      apply checkComplete_of_incomplete
      intro heq
      have h1 : (setAssoc s0.chunks i p).length = s0.totalChunks := heq
      rw [h0n] at h1
      omega
    rw [hcc]
    exact ⟨h0n, h0st, hgetk, key_facts.1, key_facts.2⟩

/-- A trace of receiver steps that never delivers chunk k preserves the
missing-chunk invariant. -/
theorem receiveEvents_missing (cfg : Config) (uploadId : String) (n tS k : Nat)
    (hk : k < n) :
    ∀ (events : List (Nat × List Nat × Nat)) (reg : List (String × UploadSession)),
      (∀ e ∈ events, e.1 ≠ k) →
      (∀ s, getAssoc uploadId reg = some s → MissingChunkInv n k s) →
      ∀ s, getAssoc uploadId (receiveEvents cfg reg uploadId n tS events) = some s →
        MissingChunkInv n k s := by
  intro events
  induction events with
  | nil =>
    intro reg _ hinv s hs
    exact hinv s hs
  | cons e tl ih =>
    intro reg hne hinv s hs
    have step := receiveOr_preserves_missing cfg reg uploadId n tS k hk e.1 e.2.1 e.2.2
      (hne e (List.mem_cons_self e tl)) hinv
    exact ih (receiveOr cfg reg uploadId e.1 n tS e.2.1 e.2.2)
      (fun e2 he2 => hne e2 (List.mem_cons_of_mem e he2)) step s hs

/-- C5: an upload for which chunk k is never delivered keeps its session
in the receiving status across any trace of chunk arrivals, and
reassembling it fails with an IncompleteUploadError; moreover the
Reassembler rechecks at read time, so any session missing an expected
chunk (whatever its status says) reassembles to that error. -/
theorem missing_chunk_never_completes :
    (∀ cfg reg uploadId n tS k events,
      getAssoc uploadId reg = none → k < n → (∀ e ∈ events, e.1 ≠ k) →
      ∀ s, getAssoc uploadId (receiveEvents cfg reg uploadId n tS events) = some s →
        s.status = .receiving ∧ reassemble s = .error .incompleteUpload) ∧
    (∀ s k, k < s.totalChunks → getAssoc k s.chunks = none →
      reassemble s = .error .incompleteUpload) := by
  constructor
  · intro cfg reg uploadId n tS k events hfresh hk hne s hs
    have hinv0 : ∀ s0, getAssoc uploadId reg = some s0 → MissingChunkInv n k s0 := by
      intro s0 hs0
      rw [hfresh] at hs0
      cases hs0
    obtain ⟨hn, hst, hmiss, -, -⟩ :=
      receiveEvents_missing cfg uploadId n tS k hk events reg hne hinv0 s hs
    exact ⟨hst, reassemble_missing s k (by rw [hn]; exact hk) hmiss⟩
  · intro s k hk hmiss
    exact reassemble_missing s k hk hmiss

/-- Witness for C5: delivering only chunk 0 of 2 leaves the session
receiving and reassembly fails with an IncompleteUploadError. -/
theorem missing_chunk_never_completes_witness :
    (∀ e ∈ [((0 : Nat), ([5] : List Nat), (0 : Nat))], e.1 ≠ 1) ∧
    UploadSession.status ⟨2, 2, [(0, [5])], .receiving, 0⟩ = .receiving ∧
    reassemble ⟨2, 2, [(0, [5])], .receiving, 0⟩ = .error .incompleteUpload :=
  ⟨by decide,
    missing_chunk_never_completes.1 ⟨10⟩ [] "u" 2 2 1 [(0, [5], 0)] rfl (by decide)
      (by decide) ⟨2, 2, [(0, [5])], .receiving, 0⟩ (by decide)⟩

/-- An association list found by lookup contains the found pair. -/
theorem mem_of_getAssoc_some {α β : Type} [DecidableEq α] {l : List (α × β)} {a : α} {b : β}
    (h : getAssoc a l = some b) : (a, b) ∈ l := by
  induction l with
  | nil => cases h
  | cons hd tl ih =>
    obtain ⟨x, y⟩ := hd
    by_cases hax : a = x
    · subst hax
      simp [getAssoc] at h
      subst h
      exact List.mem_cons_self _ _
    · simp [getAssoc, hax] at h
      exact List.mem_cons_of_mem _ (ih h)

/-- A hash index with duplicate-free keys holds at most one entry per
hash. -/
theorem countP_hash_le_one (files : List (List Nat × String))
    (hnd : (keysOf files).Nodup) (h : List Nat) :
    files.countP (fun f => decide (f.1 = h)) ≤ 1 := by
  induction files with
  | nil => simp
  | cons hd tl ih =>
    obtain ⟨h1, p1⟩ := hd
    have hnd2 : h1 ∉ tl.map Prod.fst ∧ (tl.map Prod.fst).Nodup := by
      rw [keysOf, List.map_cons, List.nodup_cons] at hnd
      exact hnd
    rw [List.countP_cons]
    by_cases hh : h1 = h
    · subst hh
      have hzero : tl.countP (fun f => decide (f.1 = h1)) = 0 := by
        rw [List.countP_eq_zero]
        intro f hf
        simp only [decide_eq_true_eq]
        intro heq
        apply hnd2.1
        rw [← heq]
        exact List.mem_map_of_mem Prod.fst hf
      simp [hzero]
    · simp only [hh, decide_eq_true_eq, if_neg hh]
      simpa using ih hnd2.2

/-- Inserting into a well-formed hash index keeps it well formed. -/
theorem storageOk_insertIfAbsent (st : Storage) (h : List Nat) (path : String)
    (hok : storageOk st) : storageOk (insertIfAbsent st h path).2 := by
  unfold insertIfAbsent
  cases hg : getAssoc h st.files with
  | some q => exact hok
  | none =>
    show (keysOf ((h, path) :: st.files)).Nodup
    rw [keysOf, List.map_cons, List.nodup_cons]
    exact ⟨(getAssoc_eq_none_iff _ _).mp hg, hok⟩

/-- A well-formed hash index that contains a hash holds exactly one
entry for it. -/
theorem countHash_of_mem (st : Storage) (h : List Nat) (hok : storageOk st)
    (hmem : ∃ q, getAssoc h st.files = some q) : countHash st h = 1 := by
  obtain ⟨q, hq⟩ := hmem
  have hle := countP_hash_le_one st.files hok h
  have hge : 0 < st.files.countP (fun f => decide (f.1 = h)) := by
    rw [List.countP_pos_iff]
    exact ⟨(h, q), mem_of_getAssoc_some hq, by simp⟩
  unfold countHash
  omega

/-- Evaluation of the deduplicator in terms of the hash lookup. -/
theorem deduplicate_spec (st : Storage) (b : List Nat) :
    deduplicate st b =
      match getAssoc (contentHash b) st.files with
      | some q => (⟨false, ⟨contentHash b, q⟩⟩, st)
      | none =>
        (⟨true, ⟨contentHash b, hashPath (contentHash b)⟩⟩,
          ⟨(contentHash b, hashPath (contentHash b)) :: st.files⟩) := by
  unfold deduplicate insertIfAbsent
  cases getAssoc (contentHash b) st.files with
  | some q => rfl
  | none => rfl

/-- Deduplicating the same content twice returns the same stored-file
reference. -/
theorem deduplicate_stored_stable (st : Storage) (b : List Nat) :
    (deduplicate (deduplicate st b).2 b).1.stored = (deduplicate st b).1.stored := by
  cases hg : getAssoc (contentHash b) st.files with
  | some q =>
    have e : deduplicate st b = (⟨false, ⟨contentHash b, q⟩⟩, st) := by
      rw [deduplicate_spec, hg]
    have e2 : deduplicate (deduplicate st b).2 b =
        (⟨false, ⟨contentHash b, q⟩⟩, st) := by
      rw [e]
      exact e
    rw [e2, e]
  | none =>
    have e : deduplicate st b =
        (⟨true, ⟨contentHash b, hashPath (contentHash b)⟩⟩,
          ⟨(contentHash b, hashPath (contentHash b)) :: st.files⟩) := by
      rw [deduplicate_spec, hg]
    have hg2 : getAssoc (contentHash b) ((deduplicate st b).2).files =
        some (hashPath (contentHash b)) := by
      rw [e]
      simp [getAssoc]
    have e2 : deduplicate (deduplicate st b).2 b =
        (⟨false, ⟨contentHash b, hashPath (contentHash b)⟩⟩, (deduplicate st b).2) := by
      rw [deduplicate_spec, hg2]
    rw [e2, e]

/-- The second deduplication of the same content leaves storage
unchanged. -/
theorem deduplicate_storage_stable (st : Storage) (b : List Nat) :
    (deduplicate (deduplicate st b).2 b).2 = (deduplicate st b).2 := by
  cases hg : getAssoc (contentHash b) st.files with
  | some q =>
    have e : deduplicate st b = (⟨false, ⟨contentHash b, q⟩⟩, st) := by
      rw [deduplicate_spec, hg]
    have e2 : deduplicate (deduplicate st b).2 b =
        (⟨false, ⟨contentHash b, q⟩⟩, st) := by
      rw [e]
      exact e
    rw [e2, e]
  | none =>
    have e : deduplicate st b =
        (⟨true, ⟨contentHash b, hashPath (contentHash b)⟩⟩,
          ⟨(contentHash b, hashPath (contentHash b)) :: st.files⟩) := by
      rw [deduplicate_spec, hg]
    have hg2 : getAssoc (contentHash b) ((deduplicate st b).2).files =
        some (hashPath (contentHash b)) := by
      rw [e]
      simp [getAssoc]
    rw [deduplicate_spec, hg2]

/-- The hash of deduplicated content is present in storage afterwards. -/
theorem getAssoc_deduplicate_self (st : Storage) (b : List Nat) :
    ∃ q, getAssoc (contentHash b) ((deduplicate st b).2).files = some q := by
  cases hg : getAssoc (contentHash b) st.files with
  | some q =>
    have e : deduplicate st b = (⟨false, ⟨contentHash b, q⟩⟩, st) := by
      rw [deduplicate_spec, hg]
    rw [e]
    exact ⟨q, hg⟩
  | none =>
    have e : deduplicate st b =
        (⟨true, ⟨contentHash b, hashPath (contentHash b)⟩⟩,
          ⟨(contentHash b, hashPath (contentHash b)) :: st.files⟩) := by
      rw [deduplicate_spec, hg]
    rw [e]
    exact ⟨hashPath (contentHash b), by simp [getAssoc]⟩

/-- Deduplication preserves storage well-formedness. -/
theorem storageOk_deduplicate (st : Storage) (b : List Nat) (hok : storageOk st) :
    storageOk (deduplicate st b).2 := by
  unfold deduplicate
  exact storageOk_insertIfAbsent st _ _ hok

/-- Evaluation of the pipeline on a session that reassembles. -/
theorem runPipeline_ok (st : Storage) (s : UploadSession) (b : List Nat)
    (h : reassemble s = .ok b) :
    runPipeline st s = ({ s with status := .completed, chunks := [] },
      (deduplicate st b).2,
      some ⟨(deduplicate st b).1.stored, (deduplicate st b).1.isNew⟩) := by
  unfold runPipeline
  rw [h]

/-- The pipeline preserves storage well-formedness. -/
theorem runPipeline_storage_ok (st : Storage) (s : UploadSession) (hok : storageOk st) :
    storageOk (runPipeline st s).2.1 := by
  unfold runPipeline
  cases reassemble s with
  | error e => exact hok
  | ok bytes => exact storageOk_deduplicate st bytes hok

/-- Completing any set of uploads preserves storage well-formedness. -/
theorem completeAll_storage_ok (st : Storage) (sessions : List UploadSession)
    (hok : storageOk st) : storageOk (completeAll st sessions) := by
  induction sessions generalizing st with
  | nil => exact hok
  | cons s tl ih => exact ih _ (runPipeline_storage_ok st s hok)

/-- C3: starting from well-formed permanent storage, completing any set
of uploads keeps at most one physical file per content hash; and when
two uploads with identical reassembled content both complete, both
report success with the same stored-file reference and storage holds
exactly one file for that hash. -/
theorem dedup_single_physical_file :
    (∀ st sessions, storageOk st →
      storageOk (completeAll st sessions) ∧
      ∀ h, countHash (completeAll st sessions) h ≤ 1) ∧
    (∀ st s1 s2 b, storageOk st → reassemble s1 = .ok b → reassemble s2 = .ok b →
      (∃ f1, (runPipeline st s1).2.2 = some f1) ∧
      (∃ f2, (runPipeline (runPipeline st s1).2.1 s2).2.2 = some f2) ∧
      (∀ f1 f2, (runPipeline st s1).2.2 = some f1 →
        (runPipeline (runPipeline st s1).2.1 s2).2.2 = some f2 →
        f2.stored = f1.stored) ∧
      (runPipeline st s1).1.status = .completed ∧
      (runPipeline (runPipeline st s1).2.1 s2).1.status = .completed ∧
      countHash (runPipeline (runPipeline st s1).2.1 s2).2.1 (contentHash b) = 1) := by
  constructor
  · intro st sessions hok
    refine ⟨completeAll_storage_ok st sessions hok, fun h => ?_⟩
    exact countP_hash_le_one (completeAll st sessions).files
      (completeAll_storage_ok st sessions hok) h
  · intro st s1 s2 b hok h1 h2
    have e1 := runPipeline_ok st s1 b h1
    have e1s : (runPipeline st s1).2.1 = (deduplicate st b).2 := by rw [e1]
    have e2 : runPipeline (runPipeline st s1).2.1 s2 =
        ({ s2 with status := .completed, chunks := [] },
          (deduplicate (deduplicate st b).2 b).2,
          some ⟨(deduplicate (deduplicate st b).2 b).1.stored,
            (deduplicate (deduplicate st b).2 b).1.isNew⟩) := by
      rw [e1s]
      exact runPipeline_ok (deduplicate st b).2 s2 b h2
    refine ⟨⟨_, by rw [e1]⟩, ⟨_, by rw [e2]⟩, ?_, by rw [e1], by rw [e2], ?_⟩
    · intro f1 f2 hf1 hf2
      rw [e1] at hf1
      rw [e2] at hf2
      injection hf1 with hf1
      injection hf2 with hf2
      rw [← hf1, ← hf2]
      show (deduplicate (deduplicate st b).2 b).1.stored = (deduplicate st b).1.stored
      exact deduplicate_stored_stable st b
    · have hst2 : (runPipeline (runPipeline st s1).2.1 s2).2.1 = (deduplicate st b).2 := by
        rw [e2]
        exact deduplicate_storage_stable st b
      rw [hst2]
      exact countHash_of_mem _ _ (storageOk_deduplicate st b hok)
        (getAssoc_deduplicate_self st b)

/-- Witness for C3: two one-chunk uploads of the same 1-byte content
complete against empty storage, which then holds exactly one file for
that hash. -/
theorem dedup_single_physical_file_witness :
    storageOk ⟨[]⟩ ∧
    reassemble ⟨1, 1, [(0, [5])], .reassembling, 0⟩ = .ok [5] ∧
    countHash
      (runPipeline (runPipeline ⟨[]⟩ ⟨1, 1, [(0, [5])], .reassembling, 0⟩).2.1
        ⟨1, 1, [(0, [5])], .reassembling, 0⟩).2.1 (contentHash [5]) = 1 :=
  ⟨List.nodup_nil, by decide,
    (dedup_single_physical_file.2 ⟨[]⟩ ⟨1, 1, [(0, [5])], .reassembling, 0⟩
      ⟨1, 1, [(0, [5])], .reassembling, 0⟩ [5] List.nodup_nil (by decide)
      (by decide)).2.2.2.2.2⟩

/-- Looking up a chunk after a batch of stores: every index that was
stored holds its payload, all other indices are untouched. -/
theorem getAssoc_applyChunks (payloads : Nat → List Nat) :
    ∀ (order : List Nat) (chunks : List (Nat × List Nat)) (j : Nat),
      getAssoc j (applyChunks payloads chunks order) =
        if j ∈ order then some (payloads j) else getAssoc j chunks := by
  intro order
  induction order with
  | nil =>
    intro chunks j
    simp [applyChunks]
  | cons i rest ih =>
    intro chunks j
    show getAssoc j (applyChunks payloads (setAssoc chunks i (payloads i)) rest) = _
    rw [ih]
    by_cases hj : j ∈ rest
    · simp [hj]
    · simp only [if_neg hj]
      by_cases hji : j = i
      · subst hji
        rw [getAssoc_setAssoc_self]
        simp
      · rw [getAssoc_setAssoc_ne _ _ _ _ hji]
        have hno : j ∉ i :: rest := by
          simp [hji, hj]
        rw [if_neg hno]

/-- Reading a fully populated index range concatenates the payloads in
ascending index order. -/
theorem readChunksFrom_complete (chunks : List (Nat × List Nat)) (payloads : Nat → List Nat) :
    ∀ (count i : Nat),
      (∀ j, i ≤ j → j < i + count → getAssoc j chunks = some (payloads j)) →
      readChunksFrom chunks i count = some (((List.range' i count).map payloads).join) := by
  intro count
  induction count with
  | zero =>
    intro i _
    simp [readChunksFrom]
  | succ count ih =>
    intro i hall
    unfold readChunksFrom
    rw [hall i (le_refl i) (by omega)]
    rw [ih (i + 1) (fun j h1 h2 => hall j (by omega) (by omega))]
    rw [List.range'_succ]
    simp

/-- Unfolding one delivery step of deliverAll. -/
theorem deliverAll_cons (cfg : Config) (reg : List (String × UploadSession))
    (uploadId : String) (n tS : Nat) (payloads : Nat → List Nat) (i : Nat)
    (rest : List Nat) (now : Nat) (reg1 : List (String × UploadSession))
    (h : receive cfg reg uploadId i n tS (payloads i) now = .ok reg1) :
    deliverAll cfg reg uploadId n tS payloads (i :: rest) now =
      deliverAll cfg reg1 uploadId n tS payloads rest now := by
  show (receive cfg reg uploadId i n tS (payloads i) now >>= fun acc =>
      List.foldlM (fun acc j => receive cfg acc uploadId j n tS (payloads j) now) acc rest) =
    deliverAll cfg reg1 uploadId n tS payloads rest now
  rw [h]
  rfl

/-- Delivering a batch of valid chunks into an existing session
accumulates exactly those chunks in its scratch area. -/
theorem deliverAll_go (cfg : Config) (uploadId : String) (n tS : Nat)
    (payloads : Nat → List Nat) (now : Nat) :
    ∀ (order : List Nat) (reg : List (String × UploadSession)) (s : UploadSession),
      getAssoc uploadId reg = some s → s.totalChunks = n →
      (∀ i ∈ order, i < n ∧ (payloads i).length ≤ cfg.chunkSizeLimit ∧
        (payloads i = [] → i + 1 = n)) →
      ∃ reg2 s2, deliverAll cfg reg uploadId n tS payloads order now = .ok reg2 ∧
        getAssoc uploadId reg2 = some s2 ∧
        s2.chunks = applyChunks payloads s.chunks order ∧ s2.totalChunks = n := by
  intro order
  induction order with
  | nil =>
    intro reg s hs hn _
    exact ⟨reg, s, rfl, hs, rfl, hn⟩
  | cons i rest ih =>
    intro reg s hs hn hall
    have hvalid : chunkValid cfg (getAssoc uploadId reg) i n (payloads i) = true := by
      rw [hs, chunkValid_eq_true_iff]
      obtain ⟨h1, h2, h3⟩ := hall i (List.mem_cons_self i rest)
      refine ⟨h1, h2, fun sx hsx => ?_, h3⟩
      injection hsx with hsx
      rw [← hsx]
      exact hn
    have hok : receive cfg reg uploadId i n tS (payloads i) now =
        .ok (setAssoc reg uploadId
          (checkComplete (storeChunk s i (payloads i) now))) := by
      rw [receive_eq_ok_iff]
      refine ⟨hvalid, ?_⟩
      rw [hs]
      rfl
    have hs1 := getAssoc_setAssoc_self reg uploadId
      (checkComplete (storeChunk s i (payloads i) now))
    have hn1 : (checkComplete (storeChunk s i (payloads i) now)).totalChunks = n := by
      rw [checkComplete_totalChunks]
      exact hn
    obtain ⟨reg2, s2, hd, hg2, hc2, hn2⟩ := ih _ _ hs1 hn1
      (fun j hj => hall j (List.mem_cons_of_mem i hj))
    refine ⟨reg2, s2, ?_, hg2, ?_, hn2⟩
    · rw [deliverAll_cons cfg reg uploadId n tS payloads i rest now _ hok]
      exact hd
    · rw [hc2]
      have hcc : (checkComplete (storeChunk s i (payloads i) now)).chunks =
          setAssoc s.chunks i (payloads i) := by
        rw [checkComplete_chunks]
        rfl
      rw [hcc]
      rfl

/-- Delivering every chunk of a fresh upload exactly once, in any
order, yields a session that reassembles to the concatenation of the
payloads in ascending index order. -/
theorem deliverAll_reassembles (cfg : Config) (reg : List (String × UploadSession))
    (uploadId : String) (n tS : Nat) (payloads : Nat → List Nat) (order : List Nat)
    (now : Nat) (hperm : order.Perm (List.range n)) (hfresh : getAssoc uploadId reg = none)
    (hn : 0 < n) (hsize : ∀ i, i < n → (payloads i).length ≤ cfg.chunkSizeLimit)
    (hne : ∀ i, i < n → payloads i = [] → i + 1 = n) :
    ∃ reg2 s, deliverAll cfg reg uploadId n tS payloads order now = .ok reg2 ∧
      getAssoc uploadId reg2 = some s ∧
      reassemble s = .ok (((List.range n).map payloads).join) := by
  cases order with
  | nil =>
    have hlen := hperm.length_eq
    simp at hlen
    omega
  | cons i rest =>
    have hmem : ∀ j ∈ i :: rest, j < n := by
      intro j hj
      have hjr := hperm.mem_iff.mp hj
      simpa using hjr
    have hi : i < n := hmem i (List.mem_cons_self i rest)
    have hvalid : chunkValid cfg (getAssoc uploadId reg) i n (payloads i) = true := by
      rw [hfresh, chunkValid_eq_true_iff]
      refine ⟨hi, hsize i hi, ?_, fun hp => hne i hi hp⟩
      intro sx hsx
      cases hsx
    have hok : receive cfg reg uploadId i n tS (payloads i) now =
        .ok (setAssoc reg uploadId
          (checkComplete (storeChunk (mkSession n tS now) i (payloads i) now))) := by
      rw [receive_eq_ok_iff]
      refine ⟨hvalid, ?_⟩
      rw [hfresh]
      rfl
    have hs1 := getAssoc_setAssoc_self reg uploadId
      (checkComplete (storeChunk (mkSession n tS now) i (payloads i) now))
    have hn1 : (checkComplete
        (storeChunk (mkSession n tS now) i (payloads i) now)).totalChunks = n := by
      rw [checkComplete_totalChunks]
      rfl
    obtain ⟨reg2, s2, hd, hg2, hc2, hn2⟩ := deliverAll_go cfg uploadId n tS payloads now
      rest _ _ hs1 hn1
      (fun j hj =>
        ⟨hmem j (List.mem_cons_of_mem i hj),
          hsize j (hmem j (List.mem_cons_of_mem i hj)),
          fun hp => hne j (hmem j (List.mem_cons_of_mem i hj)) hp⟩)
    refine ⟨reg2, s2, ?_, hg2, ?_⟩
    · rw [deliverAll_cons cfg reg uploadId n tS payloads i rest now _ hok]
      exact hd
    · have hchunks : ∀ j, j < n → getAssoc j s2.chunks = some (payloads j) := by
        intro j hj
        rw [hc2]
        have hcc : (checkComplete
            (storeChunk (mkSession n tS now) i (payloads i) now)).chunks =
            setAssoc [] i (payloads i) := by
          rw [checkComplete_chunks]
          rfl
        rw [hcc, getAssoc_applyChunks]
        by_cases hjr : j ∈ rest
        · rw [if_pos hjr]
        · rw [if_neg hjr]
          have hji : j = i := by
            have hjo : j ∈ i :: rest := hperm.mem_iff.mpr (by simpa using hj)
            rcases List.mem_cons.mp hjo with h | h
            · exact h
            · exact absurd h hjr
          subst hji
          exact getAssoc_setAssoc_self _ _ _
      unfold reassemble
      rw [hn2]
      rw [readChunksFrom_complete s2.chunks payloads n 0 (fun j h1 h2 => hchunks j (by omega))]
      rw [List.range_eq_range']

/-- C1: for every upload whose chunks are all validly delivered, in any
arrival order, the reassembled file equals the concatenation of the
chunks in ascending index order; in particular the scenario with
totalChunks 3, delivery order 2, 0, 1 and chunk sizes 4096, 4096, 2048
reassembles to the 10240-byte index-order concatenation. -/
theorem delivery_order_independent :
    (∀ (cfg : Config) (reg : List (String × UploadSession)) (uploadId : String)
      (n tS : Nat) (payloads : Nat → List Nat) (order : List Nat) (now : Nat),
      order.Perm (List.range n) → getAssoc uploadId reg = none → 0 < n →
      (∀ i, i < n → (payloads i).length ≤ cfg.chunkSizeLimit) →
      (∀ i, i < n → payloads i = [] → i + 1 = n) →
      ∃ reg2 s, deliverAll cfg reg uploadId n tS payloads order now = .ok reg2 ∧
        getAssoc uploadId reg2 = some s ∧
        reassemble s = .ok (((List.range n).map payloads).join)) ∧
    (∃ reg2 s, deliverAll ⟨4096⟩ [] "u" 3 10240 scenarioPayloads [2, 0, 1] 0 = .ok reg2 ∧
      getAssoc "u" reg2 = some s ∧
      reassemble s = .ok (((List.range 3).map scenarioPayloads).join) ∧
      (((List.range 3).map scenarioPayloads).join).length = 10240) := by
  constructor
  · intro cfg reg uploadId n tS payloads order now hperm hfresh hn hsize hne
    exact deliverAll_reassembles cfg reg uploadId n tS payloads order now hperm hfresh hn
      hsize hne
  · have hp0 : (scenarioPayloads 0).length = 4096 := by
      rw [show scenarioPayloads 0 = List.replicate 4096 0 from rfl, List.length_replicate]
    have hp1 : (scenarioPayloads 1).length = 4096 := by
      rw [show scenarioPayloads 1 = List.replicate 4096 1 from rfl, List.length_replicate]
    have hp2 : (scenarioPayloads 2).length = 2048 := by
      rw [show scenarioPayloads 2 = List.replicate 2048 2 from rfl, List.length_replicate]
    have hsize : ∀ i, i < 3 → (scenarioPayloads i).length ≤ 4096 := by
      intro i hi
      interval_cases i
      · rw [hp0]
      · rw [hp1]
      · rw [hp2]
        omega
    have hne : ∀ i, i < 3 → scenarioPayloads i = [] → i + 1 = 3 := by
      intro i hi hemp
      have hlen := congrArg List.length hemp
      interval_cases i
      · rw [hp0] at hlen
        simp at hlen
      · rw [hp1] at hlen
        simp at hlen
      · rfl
    obtain ⟨reg2, s, hd, hg, hr⟩ := deliverAll_reassembles ⟨4096⟩ [] "u" 3 10240
      scenarioPayloads [2, 0, 1] 0 (by decide) rfl (by omega) hsize hne
    refine ⟨reg2, s, hd, hg, hr, ?_⟩
    have hsplit : ((List.range 3).map scenarioPayloads).join =
        scenarioPayloads 0 ++ (scenarioPayloads 1 ++ (scenarioPayloads 2 ++ [])) := by
      rw [show List.range 3 = [0, 1, 2] from rfl]
      rfl
    rw [hsplit]
    simp only [List.length_append, List.length_nil]
    rw [hp0, hp1, hp2]

/-- Witness for C1: a three-chunk upload of one-byte chunks delivered in
order 2, 0, 1 reassembles to the chunks in index order. -/
theorem delivery_order_independent_witness :
    ([2, 0, 1] : List Nat).Perm (List.range 3) ∧
    (∃ reg2 s, deliverAll ⟨4⟩ [] "w" 3 3 (fun i => [i]) [2, 0, 1] 0 = .ok reg2 ∧
      getAssoc "w" reg2 = some s ∧
      reassemble s = .ok (((List.range 3).map (fun i => [i])).join)) :=
  ⟨by decide,
    delivery_order_independent.1 ⟨4⟩ [] "w" 3 3 (fun i => [i]) [2, 0, 1] 0 (by decide) rfl
      (by omega) (by decide) (by decide)⟩

end Chibisafe
